/-
Verification of the WAH/BBC bitmap-compression codecs and the BitString
bit-vector type (src/lib/wah.py, src/lib/bbc.py, src/lib/bitstring.py).

Bit sequences (the `bitstring.BitArray` values used by both codecs) are
modelled as `List Bool`, most significant bit first.  `BitArray(uint=n,
length=L)` becomes `natToBits L n`, and `.uint` becomes `bitsToNat`.
Python exceptions are modelled with `Option` (and an explicit error type
for the slice operation, whose error kind matters).  The `while` loops of
the codecs are modelled with an explicit step budget (`fuel`); every
top-level entry point passes `bs.length`, which over-approximates the
number of iterations whenever each iteration consumes at least one bit.
-/
import Mathlib

/-- `BitArray(uint=n, length=L)`: big-endian binary expansion of `n`,
faithful for `n < 2^L`. -/
def natToBits : Nat → Nat → List Bool
  | 0, _ => []
  | L + 1, n => decide (2 ^ L ≤ n) :: natToBits L (n % 2 ^ L)

/-- `.uint` interpretation of a bit sequence, big-endian. -/
def bitsToNat : List Bool → Nat
  | [] => 0
  | b :: rest => (cond b 1 0) * 2 ^ rest.length + bitsToNat rest

namespace WAH

/-- `wah.run_length(bs, word_size)`: number of whole `(word_size-1)`-bit
sections at the start of `bs` made of one repeated bit, capped at
`2^(word_size-2) - 1`.  `bs.find(toggle_bit)` (index of the first bit that
differs from `bs[0]`, or `len(bs)`) is the length of the leading run. -/
def run_length (w : Nat) : List Bool → Nat
  | [] => 0
  | b :: rest =>
    let run_bits := ((b :: rest).takeWhile (fun x => x == b)).length
    if run_bits < w - 1 then 0
    else min (2 ^ (w - 2) - 1) (run_bits / (w - 1))

/-- `wah.encode_run(bs, word_size)`: `('1' + bs[0:1] + runs in w-2 bits,
rest)`.  `bs[0:1]` is `bs.take 1`. -/
def encode_run (w : Nat) (bs : List Bool) : List Bool × List Bool :=
  let runs := run_length w bs
  (bs.drop ((w - 1) * runs), true :: bs.take 1 ++ natToBits (w - 2) runs)

/-- `wah.encode_literal(bs, word_size)`: `'0' + next (w-1) bits`,
right-padded with zeroes (the source's conditional padding equals padding
by `w - 1 - len(literal)` zeroes). -/
def encode_literal (w : Nat) (bs : List Bool) : List Bool × List Bool :=
  if bs = [] then (bs, List.replicate w false)
  else
    let literal := bs.take (w - 1)
    (bs.drop (w - 1), false :: (literal ++ List.replicate (w - 1 - literal.length) false))

/-- The `while` loop of `wah.compress`, with an explicit step budget.
Carries `final_length`, reassigned at every literal word. -/
def compressGo (w : Nat) : Nat → List Bool → Nat → List Bool × Nat
  | _, [], final_length => ([], final_length)
  | 0, _ :: _, final_length => ([], final_length)
  | fuel + 1, b :: rest, final_length =>
    let bs := b :: rest
    if run_length w bs = 0 then
      let p := encode_literal w bs
      let r := compressGo w fuel p.1 (min w (bs.length + 1))
      (p.2 ++ r.1, r.2)
    else
      let p := encode_run w bs
      let r := compressGo w fuel p.1 final_length
      (p.2 ++ r.1, r.2)

/-- `wah.compress(bs, word_size)`: `None` models the `ValueError`s on
empty input and `word_size <= 1`. -/
def compress (bs : List Bool) (w : Nat) : Option (List Bool × Nat) :=
  if bs.isEmpty then none
  else if w ≤ 1 then none
  else some (compressGo w bs.length bs w)

/-- The `while` loop of `wah.decompress`.  `next_word = bs[:w]` is
`b :: bs'.take (w-1)` and `bs[w:]` is `bs'.drop (w-1)` (for `w ≥ 1`).
`none` models the `IndexError` on `next_word[1]` when the word has one
bit, and the `InterpretError` of `.uint` on the empty `next_word[2:]`. -/
def decompressGo (w fl : Nat) : Nat → List Bool → Option (List Bool)
  | _, [] => some []
  | 0, _ :: _ => none
  | fuel + 1, b :: bs =>
    let next_tail := bs.take (w - 1)
    let rest := bs.drop (w - 1)
    if b then
      match next_tail with
      | [] => none
      | run_type :: cnt =>
        if cnt = [] then none
        else
          match decompressGo w fl fuel rest with
          | none => none
          | some r => some (List.replicate ((w - 1) * bitsToNat cnt) run_type ++ r)
    else
      let lit := if rest = [] then next_tail.take (fl - 1) else next_tail
      match decompressGo w fl fuel rest with
      | none => none
      | some r => some (lit ++ r)

/-- `wah.decompress(bs, final_length, word_size)`: `None` models the
`ValueError`s on empty input, `word_size <= 1` and `final_length` outside
`[1, word_size]`. -/
def decompress (bs : List Bool) (final_length w : Nat) : Option (List Bool) :=
  if bs.isEmpty then none
  else if w ≤ 1 then none
  else if ¬(1 ≤ final_length ∧ final_length ≤ w) then none
  else decompressGo w final_length bs.length bs

end WAH

namespace BBC

/-- `bbc.get_gaps(bs)`: strip up to `all_bits(15) = 32767` leading whole
zero bytes.  `bs.find('0b1')` (or `len(bs)`) is the leading-zero count. -/
def get_gaps (bs : List Bool) : List Bool × Nat :=
  let gap_bits := (bs.takeWhile (fun x => x == false)).length
  if gap_bits < 8 then (bs, 0)
  else
    let gaps := min (2 ^ 15 - 1) (gap_bits / 8)
    (bs.drop (gaps * 8), gaps)

/-- `bbc.dirty_bit_pos(bs)`: position of the single set bit in the next
byte, or `-1`.  `byte.find('0b1')[0]` is the leading-zero count of the
byte. -/
def dirty_bit_pos (bs : List Bool) : Int :=
  let byte := bs.take 8
  if byte.count true ≠ 1 then -1
  else ((byte.takeWhile (fun x => x == false)).length : Int)

/-- The `for byte in bs.cut(8)` loop of `bbc.get_literals`, counting the
accepted bytes.  `BitArray.cut` yields only full 8-bit chunks, so a
trailing partial byte is never inspected. -/
def literalCountGo : List Bool → Nat → Nat
  | b0 :: b1 :: b2 :: b3 :: b4 :: b5 :: b6 :: b7 :: rest, count =>
    if [b0, b1, b2, b3, b4, b5, b6, b7].count true = 0 then count
    else if count + 1 = 15 then count + 1
    else literalCountGo rest (count + 1)
  | _, count => count

/-- `bbc.get_literals(bs)`: the literal bytes accepted by the loop are the
first `count` bytes of `bs`, so `literals = bs[:count*8]` and the tail is
`bs[count*8:]`. -/
def get_literals (bs : List Bool) : List Bool × List Bool :=
  let count := literalCountGo bs 0
  (bs.drop (count * 8), bs.take (count * 8))

/-- `bbc.create_atom(gaps, is_dirty, special, literals)`: header byte,
then 0-2 gap extension bytes, then the literals (unless dirty).  `none`
models the `ValueError` on `gaps > all_bits(15)` and the `CreationError`
`BitArray(uint=special, length=4)` would raise for `special ≥ 16`.
`gaps >> 8` is `gaps / 256` and `gaps & 0xff` is `gaps % 256`. -/
def create_atom (gaps : Nat) (is_dirty : Bool) (special : Nat)
    (literals : List Bool) : Option (List Bool) :=
  if 16 ≤ special then none
  else
    let header := natToBits 3 (min gaps 7) ++ [is_dirty] ++ natToBits 4 special
    let ext : Option (List Bool) :=
      if 7 ≤ gaps ∧ gaps ≤ 127 then some (natToBits 8 gaps)
      else if 127 < gaps ∧ gaps ≤ 32767 then
        some (true :: (natToBits 7 (gaps / 256) ++ natToBits 8 (gaps % 256)))
      else if 32767 < gaps then none
      else some []
    match ext with
    | none => none
    | some e => some (header ++ e ++ (if is_dirty then [] else literals))

/-- One iteration of the `while` loop of `bbc.compress`: returns the
remaining input and the atom (`none` for a raised error).
`lookahead_byte = bs[8:16]` after the gaps are consumed. -/
def compressStep (bs : List Bool) : List Bool × Option (List Bool) :=
  let p := get_gaps bs
  let lookahead_byte := (p.1.drop 8).take 8
  let offset_as_literal : Bool := 0 < lookahead_byte.count true
  let dirty_bit := dirty_bit_pos p.1
  let is_dirty : Bool := (dirty_bit != -1) && !offset_as_literal
  if is_dirty then
    (p.1.drop 8, create_atom p.2 true dirty_bit.toNat [])
  else
    let q := get_literals p.1
    (q.1, create_atom p.2 false (q.2.length / 8) q.2)

/-- The `while` loop of `bbc.compress`, with an explicit step budget
(`none` when the budget is exhausted, i.e. the loop has not terminated
within `fuel` iterations). -/
def compressGo : Nat → List Bool → Option (List Bool)
  | _, [] => some []
  | 0, _ :: _ => none
  | fuel + 1, b :: rest =>
    match compressStep (b :: rest) with
    | (_, none) => none
    | (bs2, some atom) => (compressGo fuel bs2).map (fun r => atom ++ r)

/-- `bbc.compress(bs)` with a step budget; `none` also models the
`ValueError` on empty input. -/
def compress (fuel : Nat) (bs : List Bool) : Option (List Bool) :=
  if bs.isEmpty then none else compressGo fuel bs

/-- The `while` loop of `bbc.decompress`: read a header byte, emit
`gaps * 8` zero bits, then either a reconstructed offset byte or
`special` literal bytes taken verbatim.  `none` models the
`ValueError('Invalid data format')` checks.  `end_bits` is computed in
`Int` because `bits_per_byte - special - 1` can be negative in Python. -/
def decompressGo : Nat → List Bool → Option (List Bool)
  | _, [] => some []
  | 0, _ :: _ => none
  | fuel + 1, b0 :: b1 :: b2 :: b3 :: b4 :: b5 :: b6 :: b7 :: rest =>
    let gaps := bitsToNat [b0, b1, b2]
    let special := bitsToNat [b4, b5, b6, b7]
    let gapPart := List.replicate (gaps * 8) false
    if b3 then
      let end_bits : Int := 8 - (special : Int) - 1
      let onePart := List.replicate (((8 : Int) - end_bits).toNat - 1) false ++ [true]
      let endPart := if 0 < end_bits then List.replicate end_bits.toNat false else []
      match decompressGo fuel rest with
      | none => none
      | some r => some (gapPart ++ onePart ++ endPart ++ r)
    else
      let lit_bits := special * 8
      if rest.length < lit_bits then none
      else
        match decompressGo fuel (rest.drop lit_bits) with
        | none => none
        | some r => some (gapPart ++ rest.take lit_bits ++ r)
  | _ + 1, _ => none

/-- `bbc.decompress(bs)`; `none` also models the `ValueError` on empty
input. -/
def decompress (bs : List Bool) : Option (List Bool) :=
  if bs.isEmpty then none else decompressGo bs.length bs

end BBC

/-- `util.all_bits(bit_count) = 2**bit_count - 1`. -/
def all_bits (bit_count : Nat) : Nat := 2 ^ bit_count - 1

/-- `lib.bitstring.BitString`: a bit string stored as a raw integer plus a
length.  Canonical Python values have a non-negative `bits` field, so
`bits : Nat`. -/
structure BitString where
  bits : Nat
  length : Nat
deriving DecidableEq

/-- Error kinds raised by the slice operations of `BitString`. -/
inductive SliceErr where
  /-- `NotImplementedError('negative step')` -/
  | unsupportedStep
  /-- `ValueError('slice step cannot be zero')` -/
  | zeroStep
  /-- `IndexError('index out of range')` from the stepped-slice loop -/
  | indexErr
deriving DecidableEq

namespace BitString

/-- The two-argument constructor `BitString(n, length)` for an `int` `n`:
the unused bits are cleared with `bits &= all_bits(length)`. -/
def ofNatLen (n L : Nat) : BitString := ⟨n &&& all_bits L, L⟩

/-- The one-argument constructor `BitString(s)` for a string `s` of `'0'`
and `'1'` characters: `int(s, 2)` (0 for the empty string) and `len(s)`. -/
def ofBits (l : List Bool) : BitString := ⟨bitsToNat l, l.length⟩

/-- `BitString.from_iter(bits, length)`: consume elements until `count ==
length` (never, when `length` is negative), shifting each bit in from the
right. -/
def from_iter (l : List Bool) (length : Int) : BitString :=
  let taken := if length < 0 then l else l.take length.toNat
  ⟨taken.foldl (fun acc b => 2 * acc + cond b 1 0) 0, taken.length⟩

/-- In-range bit read: `1 if self.bits & (1 << (len(self) - 1 - i)) else
0` (`__getitem__` additionally raises `IndexError` out of range; see
`getItem`). -/
def get (b : BitString) (i : Nat) : Bool := b.bits.testBit (b.length - 1 - i)

/-- `__getitem__` with an integer key, `none` for the `IndexError`. -/
def getItem (b : BitString) (i : Int) : Option Bool :=
  if i < 0 ∨ (b.length : Int) ≤ i then none else some (b.get i.toNat)

/-- `__setitem__`: set or clear bit `i`; `none` for the `IndexError`.
Clearing uses `all_bits(len(self)) & ~bit_at_i`, which for `i < length`
is the natural number `all_bits length - 2^(length - 1 - i)`. -/
def setItem (b : BitString) (i : Nat) (flag : Bool) : Option BitString :=
  if b.length ≤ i then none
  else some ⟨if flag then b.bits ||| 2 ^ (b.length - 1 - i)
             else b.bits &&& (all_bits b.length - 2 ^ (b.length - 1 - i)),
             b.length⟩

/-- `__add__`: `BitString((self.bits << len(other)) | other.bits,
len(self) + len(other))` (two-argument constructor, hence masked). -/
def append (a b : BitString) : BitString :=
  ofNatLen ((a.bits <<< b.length) ||| b.bits) (a.length + b.length)

/-- `__iadd__`: same bits as `__add__` but in place, without the
constructor's masking. -/
def appendInPlace (a b : BitString) : BitString :=
  ⟨(a.bits <<< b.length) ||| b.bits, a.length + b.length⟩

/-- `__lshift__`: `BitString(self.bits << count, len(self) + count)`. -/
def shiftL (a : BitString) (count : Nat) : BitString :=
  ofNatLen (a.bits <<< count) (a.length + count)

/-- `__ilshift__`: in-place left shift, no masking. -/
def shiftLInPlace (a : BitString) (count : Nat) : BitString :=
  ⟨a.bits <<< count, a.length + count⟩

/-- `__rshift__`: `BitString(self.bits >> count, max(0, len(self) -
count))`; `max 0` is Nat subtraction. -/
def shiftR (a : BitString) (count : Nat) : BitString :=
  ofNatLen (a.bits >>> count) (a.length - count)

/-- `__irshift__`: in-place right shift, no masking. -/
def shiftRInPlace (a : BitString) (count : Nat) : BitString :=
  ⟨a.bits >>> count, a.length - count⟩

/-- `__invert__`: `BitString(~self.bits, len(self))`.  For `n ≥ 0` the
masked Python value `(~n) & all_bits(L)` equals
`all_bits L - n % 2^L`. -/
def compl (a : BitString) : BitString :=
  ⟨all_bits a.length - a.bits % 2 ^ a.length, a.length⟩

/-- `BitString._absolute_index`. -/
def absoluteIndex (b : BitString) (i : Int) : Int :=
  if i < 0 then (b.length : Int) + i else i

/-- `BitString._normalize_slice`: note that the *step* is also passed
through `_absolute_index`, so a negative step `s` with `length + s ≥ 0`
is replaced by `length + s` before the negativity check. -/
def normalize_slice (b : BitString) (start stop step : Option Int) :
    Except SliceErr (Int × Int × Int) :=
  let start := match start with | none => 0 | some i => b.absoluteIndex i
  let stop := match stop with | none => (b.length : Int) | some i => b.absoluteIndex i
  let step := match step with | none => 1 | some i => b.absoluteIndex i
  if step < 0 then .error .unsupportedStep
  else if step = 0 then .error .zeroStep
  else .ok (max 0 start, min stop (b.length : Int), step)

/-- `BitString._get_consecutive_bits` (re-normalizes its arguments, as
the source does).  `bits >> self._right_align_index(stop - 1)` is
`bits >>> (length - stop)`. -/
def get_consecutive_bits (b : BitString) (start stop : Option Int) :
    Except SliceErr BitString :=
  match b.normalize_slice start stop (some 1) with
  | .error e => .error e
  | .ok (start, stop, _) =>
    if start = 0 ∧ stop = (b.length : Int) then .ok ⟨b.bits, b.length⟩
    else if stop ≤ start ∨ (b.length : Int) ≤ start ∨ stop ≤ 0 then .ok ⟨0, 0⟩
    else
      let bits := b.bits >>> (b.length - stop.toNat)
      let length := (stop - start).toNat
      .ok ⟨bits &&& all_bits length, length⟩

/-- `BitString.slice`: the stepped branch builds `BitString(0,
slice_count)` and copies `self[src]` into `bits[dest]` for `dest, src`
in `enumerate(range(start, stop, step))`; `range(start, stop, step)` has
`1 + (span - 1) // step` elements `start + dest * step`. -/
def slice (b : BitString) (start stop step : Option Int) :
    Except SliceErr BitString :=
  match b.normalize_slice start stop step with
  | .error e => .error e
  | .ok (start, stop, step) =>
    if step = 1 then b.get_consecutive_bits (some start) (some stop)
    else if stop ≤ start ∨ (b.length : Int) ≤ start ∨ stop ≤ 0 then .ok ⟨0, 0⟩
    else
      let slice_span := stop - start
      let slice_count := (1 + (slice_span - 1) / step).toNat
      let folded := (List.range slice_count).foldlM
        (fun acc dest =>
          match b.getItem (start + Int.ofNat dest * step) with
          | none => none
          | some v => acc.setItem dest v)
        (⟨0, slice_count⟩ : BitString)
      match folded with
      | some r => .ok r
      | none => .error .indexErr

/-- `BitString.run_length(flag)`: `flag = None` defaults to `self[0]`
when the string is non-empty; `bool(None)` is `False`, modelled by
`Option.getD false`. -/
def run_length (b : BitString) (flag : Option Bool) : Nat :=
  let flag := if flag = none ∧ 0 < b.length then some (b.get 0) else flag
  if b.length = 0 ∨ b.get 0 ≠ flag.getD false then 0
  else b.length - (if flag.getD false then b.compl.bits else b.bits).size

/-- The bit sequence denoted by a `BitString` (most significant first). -/
def toBits (b : BitString) : List Bool := natToBits b.length b.bits

/-- Well-formedness: the backing integer has no set bits at or above the
declared length. -/
def wf (b : BitString) : Prop := b.bits < 2 ^ b.length

end BitString

/-- Length of the maximal leading run of a bit list. -/
def leadRun : List Bool → Nat
  | [] => 0
  | x :: xs => ((x :: xs).takeWhile (fun y => y == x)).length

theorem natToBits_length (L n : Nat) : (natToBits L n).length = L := by
  induction L generalizing n with
  | zero => rfl
  | succ L ih => simp [natToBits, ih]

theorem bitsToNat_lt (l : List Bool) : bitsToNat l < 2 ^ l.length := by
  induction l with
  | nil => simp [bitsToNat]
  | cons b rest ih =>
    simp only [bitsToNat, List.length_cons, pow_succ]
    cases b <;> simp <;> omega

theorem bitsToNat_natToBits (L n : Nat) (h : n < 2 ^ L) :
    bitsToNat (natToBits L n) = n := by
  induction L generalizing n with
  | zero => simp [natToBits, bitsToNat]; omega
  | succ L ih =>
    have hmod : n % 2 ^ L < 2 ^ L := Nat.mod_lt _ (Nat.pos_pow_of_pos _ (by norm_num))
    simp only [natToBits, bitsToNat, natToBits_length, ih _ hmod]
    by_cases hc : 2 ^ L ≤ n
    · have : n % 2 ^ L = n - 2 ^ L := by
        rw [Nat.mod_eq_sub_mod hc, Nat.mod_eq_of_lt (by rw [pow_succ] at h; omega)]
      rw [this, decide_eq_true hc]
      simp only [cond_true]
      omega
    · have : n % 2 ^ L = n := Nat.mod_eq_of_lt (by omega)
      simp [hc, this]

theorem all_bits_and_eq_mod (n L : Nat) : n &&& all_bits L = n % 2 ^ L := by
  apply Nat.eq_of_testBit_eq
  intro i
  rw [Nat.testBit_and, all_bits, Nat.testBit_two_pow_sub_one,
    Nat.testBit_mod_two_pow, Bool.and_comm]

theorem take_of_le_takeWhile (x : Bool) :
    ∀ (l : List Bool) (k : Nat),
      k ≤ (l.takeWhile (fun y => y == x)).length → l.take k = List.replicate k x := by
  intro l
  induction l with
  | nil =>
    intro k hk
    simp [List.takeWhile] at hk
    simp [hk]
  | cons a l ih =>
    intro k hk
    rw [List.takeWhile_cons] at hk
    by_cases ha : a = x
    · subst ha
      cases k with
      | zero => simp
      | succ k =>
        simp only [beq_self_eq_true, if_true, List.length_cons] at hk
        simp [List.replicate_succ, ih k (by omega)]
    · have : (a == x) = false := beq_eq_false_iff_ne.mpr ha
      simp [this] at hk
      simp [hk]

theorem natToBits_compl (L : Nat) :
    ∀ n, n < 2 ^ L → natToBits L (2 ^ L - 1 - n) = (natToBits L n).map (fun b => !b) := by
  induction L with
  | zero => intro n _; rfl
  | succ L ih =>
    intro n hn
    have hpos : 0 < 2 ^ L := Nat.pos_pow_of_pos _ (by norm_num)
    have hsub : 2 ^ (L + 1) - 1 - n < 2 ^ (L + 1) := by
      have : (1 : Nat) ≤ 2 ^ (L + 1) := Nat.one_le_two_pow
      omega
    simp only [natToBits, List.map_cons]
    congr 1
    · rw [pow_succ] at hn
      by_cases hc : 2 ^ L ≤ n
      · have h2 : ¬ 2 ^ L ≤ 2 ^ (L + 1) - 1 - n := by rw [pow_succ]; omega
        rw [decide_eq_true hc, decide_eq_false h2, Bool.not_true]
      · have h2 : 2 ^ L ≤ 2 ^ (L + 1) - 1 - n := by rw [pow_succ]; omega
        rw [decide_eq_true h2, decide_eq_false hc, Bool.not_false]
    · have hmod : (2 ^ (L + 1) - 1 - n) % 2 ^ L = 2 ^ L - 1 - n % 2 ^ L := by
        rw [pow_succ] at hn ⊢
        by_cases hc : 2 ^ L ≤ n
        · have h1 : n % 2 ^ L = n - 2 ^ L := by
            rw [Nat.mod_eq_sub_mod hc, Nat.mod_eq_of_lt (by omega)]
          have h2 : 2 ^ L * 2 - 1 - n < 2 ^ L := by omega
          rw [Nat.mod_eq_of_lt h2]
          omega
        · have h1 : n % 2 ^ L = n := Nat.mod_eq_of_lt (by omega)
          have h2 : 2 ^ L * 2 - 1 - n = 2 ^ L + (2 ^ L - 1 - n) := by omega
          rw [h1, h2, Nat.add_mod_left, Nat.mod_eq_of_lt (by omega)]
      rw [hmod, ih _ (Nat.mod_lt _ hpos)]

theorem takeWhile_false_natToBits (L : Nat) :
    ∀ n, n < 2 ^ L →
      ((natToBits L n).takeWhile (fun x => x == false)).length = L - n.size := by
  induction L with
  | zero => intro n _; simp [natToBits]
  | succ L ih =>
    intro n hn
    by_cases hc : 2 ^ L ≤ n
    · have hsz : n.size = L + 1 := by
        have h1 : L < n.size := Nat.lt_size.mpr hc
        have h2 : n.size ≤ L + 1 := Nat.size_le.mpr hn
        omega
      simp only [natToBits, decide_eq_true hc, List.takeWhile_cons]
      rw [if_neg (by decide)]
      simp [hsz]
    · have hlt : n < 2 ^ L := by omega
      have hmod : n % 2 ^ L = n := Nat.mod_eq_of_lt hlt
      have hsz : n.size ≤ L := Nat.size_le.mpr hlt
      have hih := ih _ hlt
      simp only [natToBits, decide_eq_false hc, hmod, List.takeWhile_cons]
      rw [if_pos (by decide)]
      simp only [List.length_cons, hih]
      omega

theorem takeWhile_not_map (l : List Bool) :
    ((l.map (fun b => !b)).takeWhile (fun x => x == false)).length =
      (l.takeWhile (fun x => x == true)).length := by
  induction l with
  | nil => rfl
  | cons a l ih =>
    cases a
    · simp only [List.map_cons, Bool.not_false, List.takeWhile_cons]
      rw [if_neg (by decide), if_neg (by decide)]
    · simp only [List.map_cons, Bool.not_true, List.takeWhile_cons]
      rw [if_pos (by decide), if_pos (by decide)]
      simp only [List.length_cons, ih]

theorem foldl_bits_eq (l : List Bool) :
    ∀ acc : Nat, l.foldl (fun a b => 2 * a + cond b 1 0) acc =
      acc * 2 ^ l.length + bitsToNat l := by
  induction l with
  | nil => intro acc; simp [bitsToNat]
  | cons b l ih =>
    intro acc
    simp only [List.foldl_cons, ih, bitsToNat, List.length_cons, pow_succ]
    ring

/-- Claim C1: BBC decompression does not invert BBC compression: for the
56-bit all-zero input (seven gap bytes), compression produces the atom
`11100000 00000111` (header with gap field 7 plus one extension byte),
and decompressing that atom raises `ValueError` (modelled as `none`)
instead of returning the input. -/
theorem c1_bbc_roundtrip_fails :
    BBC.compress 8 (List.replicate 56 false) =
      some [true, true, true, false, false, false, false, false,
            false, false, false, false, false, true, true, true] ∧
    BBC.decompress [true, true, true, false, false, false, false, false,
            false, false, false, false, false, true, true, true] = none := by
  constructor
  · decide
  · decide

/-- Claim C2: the BBC decoder never reads gap-extension bytes.  For the
64-bit all-zero input, compression emits header gap field 7 plus the
extension byte `00001000` (gap count 8), but the decoder appends only
7 * 8 zero bits and then re-reads the extension byte as a header byte,
failing with `ValueError` (modelled as `none`) instead of decoding the
claimed 8 * 8 zero bits. -/
theorem c2_bbc_decoder_ignores_extension_bytes :
    BBC.compress 8 (List.replicate 64 false) =
      some [true, true, true, false, false, false, false, false,
            false, false, false, false, true, false, false, false] ∧
    BBC.decompress [true, true, true, false, false, false, false, false,
            false, false, false, false, true, false, false, false] = none := by
  constructor
  · decide
  · decide

theorem bbc_compressGo_single_zero_bit :
    ∀ fuel, BBC.compressGo fuel [false] = none := by
  intro fuel
  induction fuel with
  | zero => rfl
  | succ n ih =>
    have hstep : BBC.compressStep [false] = ([false], some (List.replicate 8 false)) := by
      decide
    simp only [BBC.compressGo, hstep, ih, Option.map_none']

/-- Claim C4: BBC compression does not terminate on every non-empty
input.  On the single-bit input `0` every loop iteration consumes zero
bits (the trailing partial byte is neither a gap, nor dirty, nor yielded
by `cut(8)`), so no step budget suffices: the loop runs forever. -/
theorem c4_bbc_compress_diverges_on_single_zero_bit :
    ∀ fuel, BBC.compress fuel [false] = none := by
  intro fuel
  simp only [BBC.compress, List.isEmpty_cons, Bool.false_eq_true, if_false,
    bbc_compressGo_single_zero_bit]

/-- Claim C5 counterexample: a compressed stream whose bit length is not
a multiple of the word size does not fail in WAH decompression: the
1-bit stream `0` with `word_size = 2` and `final_length = 1`
decompresses successfully to the empty bit string. -/
theorem c5_counterexample_no_malformed_input_error :
    ([false] : List Bool).length % 2 = 1 ∧ WAH.decompress [false] 1 2 = some [] := by
  constructor
  · decide
  · decide

/-- Claim C5 (amended): `WAH.decompress` performs no check that the
stream length is a multiple of the word size; for every `word_size ≥ 2`
and `final_length ∈ [1, word_size]`, the 1-bit literal-flagged stream
`0` (length not a multiple of the word size) is accepted and
decompresses to the empty bit string. -/
theorem c5_wah_decompress_accepts_unaligned_stream
    (w fl : Nat) (hw : 2 ≤ w) (h1 : 1 ≤ fl) (h2 : fl ≤ w) :
    ([false] : List Bool).length % w ≠ 0 ∧ WAH.decompress [false] fl w = some [] := by
  constructor
  · show (1 : Nat) % w ≠ 0
    rw [Nat.mod_eq_of_lt (by omega : (1 : Nat) < w)]
    omega
  · have hw' : ¬ w ≤ 1 := by omega
    have hfl : ¬¬(1 ≤ fl ∧ fl ≤ w) := by omega
    unfold WAH.decompress
    rw [if_neg (by decide), if_neg hw', if_neg hfl]
    show WAH.decompressGo w fl 1 [false] = some []
    simp [WAH.decompressGo]

theorem c5_witness :
    ([false] : List Bool).length % 2 ≠ 0 ∧ WAH.decompress [false] 2 2 = some [] :=
  c5_wah_decompress_accepts_unaligned_stream 2 2 (by decide) (by decide) (by decide)

/-- Claim C7: a negative slice step does not always fail with
`UnsupportedStep`: `_normalize_slice` first maps a negative step `s`
through `_absolute_index`, so on the 2-bit string `01` the step `-1`
becomes `1` and the slice succeeds, returning the whole string; only
steps below `-length` (here `-5`) reach the negativity check and raise
`NotImplementedError`; step `0` raises `ValueError`. -/
theorem c7_negative_step_not_always_rejected :
    BitString.slice ⟨1, 2⟩ none none (some (-1)) = .ok ⟨1, 2⟩ ∧
    BitString.slice ⟨1, 2⟩ none none (some (-5)) = .error .unsupportedStep ∧
    BitString.slice ⟨1, 2⟩ none none (some 0) = .error .zeroStep :=
  ⟨rfl, rfl, rfl⟩

theorem testBit_msb (M n : Nat) (h : n < 2 ^ (M + 1)) :
    n.testBit M = decide (2 ^ M ≤ n) := by
  have hpos : 0 < 2 ^ M := Nat.pos_pow_of_pos _ (by norm_num)
  have hdiv : n / 2 ^ M < 2 := by
    rw [Nat.div_lt_iff_lt_mul hpos]
    rw [pow_succ] at h
    omega
  rw [Nat.testBit_to_div_mod]
  by_cases hc : 2 ^ M ≤ n
  · have h1 : 1 ≤ n / 2 ^ M := (Nat.one_le_div_iff hpos).mpr hc
    have : n / 2 ^ M = 1 := by omega
    simp [this, hc]
  · have h0 : n / 2 ^ M = 0 := Nat.div_eq_of_lt (by omega)
    simp [h0, hc]

theorem bs_get_zero (n M : Nat) (h : n < 2 ^ (M + 1)) :
    BitString.get ⟨n, M + 1⟩ 0 = decide (2 ^ M ≤ n) := by
  show Nat.testBit n (M + 1 - 1 - 0) = decide (2 ^ M ≤ n)
  simpa using testBit_msb M n h

theorem bs_toBits_succ (n M : Nat) :
    BitString.toBits ⟨n, M + 1⟩ = decide (2 ^ M ≤ n) :: natToBits M (n % 2 ^ M) := rfl

theorem bs_run_length_some_eq (b : BitString) (f : Bool) :
    b.run_length (some f) =
      if b.length = 0 ∨ b.get 0 ≠ f then 0
      else b.length - (if f then b.compl.bits else b.bits).size := by
  unfold BitString.run_length
  simp

theorem bs_run_length_none_eq (b : BitString) :
    b.run_length none = if b.length = 0 then 0 else b.run_length (some (b.get 0)) := by
  rw [bs_run_length_some_eq]
  unfold BitString.run_length
  by_cases h : b.length = 0
  · simp [h]
  · have h0 : 0 < b.length := by omega
    simp [h, h0]

theorem bs_run_length_flagged (b : BitString) (hwf : b.wf) (f : Bool) :
    b.run_length (some f) = (b.toBits.takeWhile (fun x => x == f)).length := by
  obtain ⟨n, L⟩ := b
  have hwf' : n < 2 ^ L := hwf
  rw [bs_run_length_some_eq]
  cases L with
  | zero => simp [BitString.toBits, natToBits]
  | succ M =>
    have hget := bs_get_zero n M hwf'
    by_cases hf : BitString.get ⟨n, M + 1⟩ 0 = f
    · rw [if_neg (by simp [hf])]
      cases f with
      | false =>
        rw [if_neg (by simp)]
        show M + 1 - n.size = _
        exact (takeWhile_false_natToBits (M + 1) n hwf').symm
      | true =>
        rw [if_pos rfl]
        show M + 1 - (BitString.compl ⟨n, M + 1⟩).bits.size = _
        have hmod : n % 2 ^ (M + 1) = n := Nat.mod_eq_of_lt hwf'
        have hbits : (BitString.compl ⟨n, M + 1⟩).bits = 2 ^ (M + 1) - 1 - n := by
          show all_bits (M + 1) - n % 2 ^ (M + 1) = _
          rw [hmod, all_bits]
        have hlt : 2 ^ (M + 1) - 1 - n < 2 ^ (M + 1) := by
          have : (1 : Nat) ≤ 2 ^ (M + 1) := Nat.one_le_two_pow
          omega
        rw [hbits]
        rw [show ((BitString.toBits ⟨n, M + 1⟩).takeWhile (fun x => x == true)).length =
          (((BitString.toBits ⟨n, M + 1⟩).map (fun b => !b)).takeWhile
            (fun x => x == false)).length from (takeWhile_not_map _).symm]
        rw [show (BitString.toBits ⟨n, M + 1⟩).map (fun b => !b) =
          natToBits (M + 1) (2 ^ (M + 1) - 1 - n) from
            (natToBits_compl (M + 1) n hwf').symm]
        rw [takeWhile_false_natToBits (M + 1) _ hlt]
    · rw [if_pos (Or.inr hf)]
      rw [bs_toBits_succ, List.takeWhile_cons]
      rw [hget] at hf
      rw [if_neg (by simpa using hf)]
      rfl

/-- Claim C8: for a canonical BitString, `run_length(flag)` returns the
exact number of leading bits equal to `flag` (0 when the string is empty
or its first bit differs), and `run_length()` with no flag returns the
length of the maximal leading run. -/
theorem c8_run_length_correct (b : BitString) (hwf : b.wf) :
    (∀ f : Bool, b.run_length (some f) = (b.toBits.takeWhile (fun x => x == f)).length) ∧
    b.run_length none = leadRun b.toBits := by
  refine ⟨fun f => bs_run_length_flagged b hwf f, ?_⟩
  obtain ⟨n, L⟩ := b
  have hwf' : n < 2 ^ L := hwf
  rw [bs_run_length_none_eq]
  cases L with
  | zero => simp [BitString.toBits, natToBits, leadRun]
  | succ M =>
    rw [if_neg (by simp)]
    rw [bs_run_length_flagged _ hwf _]
    rw [bs_toBits_succ, leadRun]
    rw [bs_get_zero n M hwf']

theorem c8_witness :
    BitString.run_length ⟨3, 4⟩ (some false) =
      ((BitString.toBits ⟨3, 4⟩).takeWhile (fun x => x == false)).length ∧
    BitString.run_length ⟨3, 4⟩ none = leadRun (BitString.toBits ⟨3, 4⟩) :=
  ⟨(c8_run_length_correct ⟨3, 4⟩ (by exact (by decide : (3 : Nat) < 2 ^ 4))).1 false,
   (c8_run_length_correct ⟨3, 4⟩ (by exact (by decide : (3 : Nat) < 2 ^ 4))).2⟩

theorem and_all_bits_lt (n L : Nat) : n &&& all_bits L < 2 ^ L := by
  have h1 : n &&& all_bits L ≤ all_bits L := Nat.and_le_right
  have h2 : 0 < 2 ^ L := Nat.pos_pow_of_pos _ (by norm_num)
  have h3 : all_bits L = 2 ^ L - 1 := rfl
  omega

theorem bs_setItem_wf (b : BitString) (i : Nat) (f : Bool) (r : BitString)
    (hwf : b.wf) (h : b.setItem i f = some r) : r.wf := by
  unfold BitString.setItem at h
  by_cases hi : b.length ≤ i
  · rw [if_pos hi] at h
    cases h
  · rw [if_neg hi] at h
    injection h with h
    subst h
    cases f
    · show b.bits &&& _ < 2 ^ b.length
      have : b.bits &&& (all_bits b.length - 2 ^ (b.length - 1 - i)) ≤ b.bits :=
        Nat.and_le_left
      have hb : b.bits < 2 ^ b.length := hwf
      omega
    · show b.bits ||| 2 ^ (b.length - 1 - i) < 2 ^ b.length
      apply Nat.or_lt_two_pow hwf
      exact Nat.pow_lt_pow_right (by norm_num) (by omega)

theorem bs_slice_fold_wf (b : BitString) (start step : Int) :
    ∀ (l : List Nat) (acc r : BitString), acc.wf →
      l.foldlM (fun acc dest =>
        match b.getItem (start + Int.ofNat dest * step) with
        | none => none
        | some v => acc.setItem dest v) acc = some r → r.wf := by
  intro l
  induction l with
  | nil =>
    intro acc r hacc h
    simp only [List.foldlM_nil] at h
    injection h with h
    subst h
    exact hacc
  | cons a l ih =>
    intro acc r hacc h
    rw [List.foldlM_cons] at h
    cases hg : b.getItem (start + Int.ofNat a * step) with
    | none => rw [hg] at h; cases h
    | some v =>
      rw [hg] at h
      have h' : (acc.setItem a v).bind (fun init => List.foldlM
          (fun acc dest =>
            match b.getItem (start + Int.ofNat dest * step) with
            | none => none
            | some v => acc.setItem dest v) init l) = some r := h
      cases hs : acc.setItem a v with
      | none =>
        rw [hs] at h'
        exact Option.noConfusion h'
      | some acc' =>
        rw [hs] at h'
        exact ih acc' r (bs_setItem_wf acc a v acc' hacc hs) h' 

theorem bs_get_consecutive_wf (b : BitString) (start stop : Option Int)
    (r : BitString) (hwf : b.wf) (h : b.get_consecutive_bits start stop = .ok r) :
    r.wf := by
  unfold BitString.get_consecutive_bits at h
  split at h
  · exact Except.noConfusion h
  · split at h
    · injection h with h
      subst h
      exact hwf
    · split at h
      · injection h with h
        subst h
        show (0 : Nat) < 2 ^ 0
        norm_num
      · injection h with h
        subst h
        exact and_all_bits_lt _ _

theorem bs_slice_wf (b : BitString) (start stop step : Option Int)
    (r : BitString) (hwf : b.wf) (h : b.slice start stop step = .ok r) : r.wf := by
  unfold BitString.slice at h
  split at h
  · exact Except.noConfusion h
  · split at h
    · exact bs_get_consecutive_wf b _ _ r hwf h
    · split at h
      · injection h with h
        subst h
        show (0 : Nat) < 2 ^ 0
        norm_num
      · dsimp only at h
        split at h
        · injection h with h
          subst h
          refine bs_slice_fold_wf b _ _ _ _ _ ?_ (by assumption)
          show (0 : Nat) < 2 ^ _
          exact Nat.pos_pow_of_pos _ (by norm_num)
        · exact Except.noConfusion h

theorem bs_toBits_inj (a b : BitString) (ha : a.wf) (hb : b.wf) :
    a.toBits = b.toBits ↔ a.length = b.length ∧ a.bits = b.bits := by
  constructor
  · intro h
    have hlen : a.length = b.length := by
      have := congrArg List.length h
      simpa [BitString.toBits, natToBits_length] using this
    refine ⟨hlen, ?_⟩
    have := congrArg bitsToNat h
    rwa [BitString.toBits, BitString.toBits, bitsToNat_natToBits _ _ ha,
      bitsToNat_natToBits _ _ hb] at this
  · intro ⟨h1, h2⟩
    rw [BitString.toBits, BitString.toBits, h1, h2]

/-- Claim C10: every BitString produced by a public operation from
canonical operands is canonical: the backing integer is below
`2 ^ length` (no set bits at or above the declared length); and on
canonical values the `(length, bits)` equality test coincides with
bit-sequence equality. -/
theorem c10_bitstring_invariant :
    (∀ l : List Bool, (BitString.ofBits l).wf) ∧
    (∀ (l : List Bool) (k : Int), (BitString.from_iter l k).wf) ∧
    (∀ n L : Nat, (BitString.ofNatLen n L).wf) ∧
    (∀ (b : BitString) (i : Nat) (f : Bool) (r : BitString),
      b.wf → b.setItem i f = some r → r.wf) ∧
    (∀ a b : BitString, a.wf → b.wf → (a.append b).wf) ∧
    (∀ a b : BitString, a.wf → b.wf → (a.appendInPlace b).wf) ∧
    (∀ (a : BitString) (c : Nat), a.wf →
      (a.shiftL c).wf ∧ (a.shiftR c).wf ∧
      (a.shiftLInPlace c).wf ∧ (a.shiftRInPlace c).wf) ∧
    (∀ a : BitString, a.compl.wf) ∧
    (∀ (b : BitString) (start stop step : Option Int) (r : BitString),
      b.wf → b.slice start stop step = .ok r → r.wf) ∧
    (∀ a b : BitString, a.wf → b.wf →
      ((a.length = b.length ∧ a.bits = b.bits) ↔ a.toBits = b.toBits)) := by
  have hshl : ∀ a : BitString, a.wf → ∀ c : Nat,
      a.bits <<< c < 2 ^ (a.length + c) := by
    intro a ha c
    rw [Nat.shiftLeft_eq, pow_add]
    exact Nat.mul_lt_mul_of_lt_of_le ha (le_refl _) (Nat.pos_pow_of_pos _ (by norm_num))
  have hshr : ∀ a : BitString, a.wf → ∀ c : Nat,
      a.bits >>> c < 2 ^ (a.length - c) := by
    intro a ha c
    rw [Nat.shiftRight_eq_div_pow]
    by_cases hc : c ≤ a.length
    · rw [Nat.div_lt_iff_lt_mul (Nat.pos_pow_of_pos _ (by norm_num)), ← pow_add]
      have : a.length - c + c = a.length := by omega
      rw [this]
      exact ha
    · have h0 : a.bits / 2 ^ c = 0 := Nat.div_eq_of_lt (by
        calc a.bits < 2 ^ a.length := ha
        _ ≤ 2 ^ c := Nat.pow_le_pow_right (by norm_num) (by omega))
      rw [h0]
      exact Nat.pos_pow_of_pos _ (by norm_num)
  refine ⟨?_, ?_, ?_, bs_setItem_wf, ?_, ?_, ?_, ?_, bs_slice_wf,
    fun a b ha hb => (bs_toBits_inj a b ha hb).symm⟩
  · intro l
    exact bitsToNat_lt l
  · intro l k
    show (if k < 0 then l else l.take k.toNat).foldl _ 0 < _
    rw [foldl_bits_eq]
    simpa using bitsToNat_lt _
  · intro n L
    exact and_all_bits_lt n L
  · intro a b _ _
    exact and_all_bits_lt _ _
  · intro a b ha hb
    show (a.bits <<< b.length) ||| b.bits < 2 ^ (a.length + b.length)
    apply Nat.or_lt_two_pow (hshl a ha b.length)
    calc b.bits < 2 ^ b.length := hb
    _ ≤ 2 ^ (a.length + b.length) := Nat.pow_le_pow_right (by norm_num) (by omega)
  · intro a c ha
    exact ⟨and_all_bits_lt _ _, and_all_bits_lt _ _, hshl a ha c, hshr a ha c⟩
  · intro a
    show all_bits a.length - a.bits % 2 ^ a.length < 2 ^ a.length
    have : 0 < 2 ^ a.length := Nat.pos_pow_of_pos _ (by norm_num)
    unfold all_bits
    omega

theorem c10_witness :
    ((BitString.ofBits [true, false]).append (BitString.ofBits [true])).wf :=
  (c10_bitstring_invariant.2.2.2.2.1) _ _
    (by exact (by decide : (2 : Nat) < 2 ^ 2))
    (by exact (by decide : (1 : Nat) < 2 ^ 1))

theorem bbc_get_gaps_le (bs : List Bool) : (BBC.get_gaps bs).2 ≤ 32767 := by
  unfold BBC.get_gaps
  dsimp only
  split
  · exact Nat.zero_le _
  · show min (2 ^ 15 - 1) _ ≤ 32767
    have h := Nat.min_le_left (2 ^ 15 - 1) ((bs.takeWhile (fun x => x == false)).length / 8)
    omega

theorem takeWhile_false_lt_length (l : List Bool) (h : l.count true = 1) :
    (l.takeWhile (fun x => x == false)).length < l.length := by
  induction l with
  | nil => simp at h
  | cons a l ih =>
    cases a
    · rw [List.count_cons] at h
      rw [List.takeWhile_cons, if_pos (by decide)]
      simp only [List.length_cons]
      have := ih (by simpa using h)
      omega
    · rw [List.takeWhile_cons, if_neg (by decide)]
      simp

theorem exists_eight_cons (l : List Bool) (h : 8 ≤ l.length) :
    ∃ b0 b1 b2 b3 b4 b5 b6 b7 rest,
      l = b0 :: b1 :: b2 :: b3 :: b4 :: b5 :: b6 :: b7 :: rest := by
  rcases l with _ | ⟨b0, _ | ⟨b1, _ | ⟨b2, _ | ⟨b3, _ | ⟨b4, _ | ⟨b5, _ | ⟨b6, _ | ⟨b7, rest⟩⟩⟩⟩⟩⟩⟩⟩
  all_goals first
  | exact ⟨_, _, _, _, _, _, _, _, _, rfl⟩
  | (simp only [List.length_nil, List.length_cons] at h; omega)

theorem literalCountGo_short (bs : List Bool) (h : bs.length < 8) (acc : Nat) :
    BBC.literalCountGo bs acc = acc := by
  rcases bs with _ | ⟨b0, _ | ⟨b1, _ | ⟨b2, _ | ⟨b3, _ | ⟨b4, _ | ⟨b5, _ | ⟨b6, _ | ⟨b7, rest⟩⟩⟩⟩⟩⟩⟩⟩
  all_goals first
  | rfl
  | (simp only [List.length_cons] at h; omega)

theorem literalCountGo_cons (b0 b1 b2 b3 b4 b5 b6 b7 : Bool) (rest : List Bool) (acc : Nat) :
    BBC.literalCountGo (b0 :: b1 :: b2 :: b3 :: b4 :: b5 :: b6 :: b7 :: rest) acc =
      if [b0, b1, b2, b3, b4, b5, b6, b7].count true = 0 then acc
      else if acc + 1 = 15 then acc + 1
      else BBC.literalCountGo rest (acc + 1) := rfl

theorem literalCountGo_ge_aux :
    ∀ (n : Nat) (bs : List Bool), bs.length ≤ n →
      ∀ acc, acc ≤ BBC.literalCountGo bs acc := by
  intro n
  induction n with
  | zero =>
    intro bs hbs acc
    rw [literalCountGo_short bs (by omega) acc]
  | succ n ih =>
    intro bs hbs acc
    by_cases h8 : 8 ≤ bs.length
    · obtain ⟨b0, b1, b2, b3, b4, b5, b6, b7, rest, rfl⟩ := exists_eight_cons bs h8
      rw [literalCountGo_cons]
      split
      · omega
      · split
        · omega
        · have := ih rest (by simp only [List.length_cons] at hbs; omega) (acc + 1)
          omega
    · rw [literalCountGo_short bs (by omega) acc]

theorem literalCountGo_ge (bs : List Bool) (acc : Nat) :
    acc ≤ BBC.literalCountGo bs acc :=
  literalCountGo_ge_aux bs.length bs (le_refl _) acc

theorem literalCountGo_le_aux :
    ∀ (n : Nat) (bs : List Bool), bs.length ≤ n →
      ∀ acc, acc ≤ 14 → BBC.literalCountGo bs acc ≤ 15 := by
  intro n
  induction n with
  | zero =>
    intro bs hbs acc hacc
    rw [literalCountGo_short bs (by omega) acc]
    omega
  | succ n ih =>
    intro bs hbs acc hacc
    by_cases h8 : 8 ≤ bs.length
    · obtain ⟨b0, b1, b2, b3, b4, b5, b6, b7, rest, rfl⟩ := exists_eight_cons bs h8
      rw [literalCountGo_cons]
      split
      · omega
      · split
        · omega
        · exact ih rest (by simp only [List.length_cons] at hbs; omega) (acc + 1) (by omega)
    · rw [literalCountGo_short bs (by omega) acc]
      omega

theorem literalCountGo_le (bs : List Bool) (acc : Nat) (hacc : acc ≤ 14) :
    BBC.literalCountGo bs acc ≤ 15 :=
  literalCountGo_le_aux bs.length bs (le_refl _) acc hacc

theorem literalCountGo_pos (b0 b1 b2 b3 b4 b5 b6 b7 : Bool) (rest : List Bool)
    (h : [b0, b1, b2, b3, b4, b5, b6, b7].count true ≠ 0) (acc : Nat) :
    acc + 1 ≤ BBC.literalCountGo (b0 :: b1 :: b2 :: b3 :: b4 :: b5 :: b6 :: b7 :: rest) acc := by
  rw [literalCountGo_cons, if_neg h]
  by_cases h15 : acc + 1 = 15
  · rw [if_pos h15]
  · rw [if_neg h15]
    exact literalCountGo_ge rest (acc + 1)

theorem get3_of_header (A C e X : List Bool) (d : Bool) (hA : A.length = 3) :
    ((A ++ ([d] ++ C)) ++ (e ++ X)).get? 3 = some d := by
  rw [List.get?_append (by simp [hA])]
  rw [List.get?_append_right (le_of_eq hA)]
  rw [hA]
  rfl

theorem create_atom_get3 (g : Nat) (d : Bool) (sp : Nat) (lits : List Bool)
    (hsp : sp < 16) (hg : g ≤ 32767) :
    (BBC.create_atom g d sp lits).bind (fun a => a.get? 3) = some d := by
  unfold BBC.create_atom
  rw [if_neg (by omega)]
  dsimp only
  split
  · exfalso
    rename_i heq
    split at heq
    · exact Option.noConfusion heq
    · split at heq
      · exact Option.noConfusion heq
      · split at heq
        · rename_i h32
          omega
        · exact Option.noConfusion heq
  · rename_i e heq
    show ((natToBits 3 (min g 7) ++ ([d] ++ natToBits 4 sp)) ++
      (e ++ (if d then [] else lits))).get? 3 = some d
    exact get3_of_header _ _ _ _ d (natToBits_length _ _)

theorem compressStep_eq (bs : List Bool) :
    BBC.compressStep bs =
      if (BBC.dirty_bit_pos (BBC.get_gaps bs).1 != -1) &&
         !(decide (0 < (((BBC.get_gaps bs).1.drop 8).take 8).count true)) then
        ((BBC.get_gaps bs).1.drop 8,
         BBC.create_atom (BBC.get_gaps bs).2 true
           (BBC.dirty_bit_pos (BBC.get_gaps bs).1).toNat [])
      else
        ((BBC.get_literals (BBC.get_gaps bs).1).1,
         BBC.create_atom (BBC.get_gaps bs).2 false
           ((BBC.get_literals (BBC.get_gaps bs).1).2.length / 8)
           (BBC.get_literals (BBC.get_gaps bs).1).2) := rfl

/-- Claim C6: in BBC compression, whenever the byte that follows the
consumed gap contains exactly one set bit (a candidate dirty byte), the
step encodes it as a dirty/offset atom (dirty flag at header bit 3,
consuming exactly that byte) iff the byte after it is absent or
all-zero; otherwise the dirty flag is clear and the candidate byte is
folded in as the first byte of the literal run. -/
theorem c6_dirty_byte_classification (bs : List Bool)
    (hcand : ((BBC.get_gaps bs).1.take 8).count true = 1) :
    (((((BBC.get_gaps bs).1.drop 8).take 8).count true = 0) →
      (BBC.compressStep bs).1 = (BBC.get_gaps bs).1.drop 8 ∧
      ((BBC.compressStep bs).2.bind (fun a => a.get? 3)) = some true) ∧
    (((((BBC.get_gaps bs).1.drop 8).take 8).count true ≠ 0) →
      (BBC.compressStep bs).1 = (BBC.get_literals (BBC.get_gaps bs).1).1 ∧
      ((BBC.compressStep bs).2.bind (fun a => a.get? 3)) = some false ∧
      (BBC.get_literals (BBC.get_gaps bs).1).2.take 8 = (BBC.get_gaps bs).1.take 8) := by
  have hg := bbc_get_gaps_le bs
  have hpos : BBC.dirty_bit_pos (BBC.get_gaps bs).1 =
      ((((BBC.get_gaps bs).1.take 8).takeWhile (fun x => x == false)).length : Int) := by
    unfold BBC.dirty_bit_pos
    rw [if_neg (by omega)]
  have hlt8 : (((BBC.get_gaps bs).1.take 8).takeWhile (fun x => x == false)).length < 8 := by
    have h1 := takeWhile_false_lt_length _ hcand
    have h2 : ((BBC.get_gaps bs).1.take 8).length ≤ 8 := by
      simp [List.length_take]
    omega
  constructor
  · intro h0
    rw [compressStep_eq]
    rw [if_pos (by
      rw [h0, hpos]
      simp)]
    refine ⟨rfl, ?_⟩
    rw [hpos]
    exact create_atom_get3 _ true _ [] (by omega) hg
  · intro h1
    have hcnt : 0 < (((BBC.get_gaps bs).1.drop 8).take 8).count true :=
      Nat.pos_of_ne_zero h1
    rw [compressStep_eq]
    rw [if_neg (by simp [hcnt])]
    have hn15 : BBC.literalCountGo (BBC.get_gaps bs).1 0 ≤ 15 :=
      literalCountGo_le _ 0 (by omega)
    have hsp : (BBC.get_literals (BBC.get_gaps bs).1).2.length / 8 < 16 := by
      show ((BBC.get_gaps bs).1.take (BBC.literalCountGo (BBC.get_gaps bs).1 0 * 8)).length / 8 < 16
      have hle : ((BBC.get_gaps bs).1.take
          (BBC.literalCountGo (BBC.get_gaps bs).1 0 * 8)).length ≤
          BBC.literalCountGo (BBC.get_gaps bs).1 0 * 8 := by
        rw [List.length_take]
        exact Nat.min_le_left _ _
      omega
    refine ⟨rfl, create_atom_get3 _ false _ _ hsp hg, ?_⟩
    have hlen9 : 8 ≤ (BBC.get_gaps bs).1.length := by
      by_contra hshort
      have : (BBC.get_gaps bs).1.drop 8 = [] := by
        apply List.drop_eq_nil_of_le
        omega
      rw [this] at h1
      simp at h1
    obtain ⟨b0, b1, b2, b3, b4, b5, b6, b7, rest, heq⟩ :=
      exists_eight_cons _ hlen9
    have hcount : [b0, b1, b2, b3, b4, b5, b6, b7].count true ≠ 0 := by
      have : (BBC.get_gaps bs).1.take 8 = [b0, b1, b2, b3, b4, b5, b6, b7] := by
        rw [heq]
        rfl
      rw [this] at hcand
      omega
    have hone : 1 ≤ BBC.literalCountGo (BBC.get_gaps bs).1 0 := by
      rw [heq]
      exact literalCountGo_pos b0 b1 b2 b3 b4 b5 b6 b7 rest hcount 0
    show ((BBC.get_gaps bs).1.take (BBC.literalCountGo (BBC.get_gaps bs).1 0 * 8)).take 8 =
      (BBC.get_gaps bs).1.take 8
    rw [List.take_take]
    congr 1
    omega

theorem c6_witness :
    (BBC.compressStep ([true, false, false, false, false, false, false, false] : List Bool)).1 =
      (BBC.get_gaps [true, false, false, false, false, false, false, false]).1.drop 8 ∧
    ((BBC.compressStep ([true, false, false, false, false, false, false, false] : List Bool)).2.bind
      (fun a => a.get? 3)) = some true :=
  (c6_dirty_byte_classification [true, false, false, false, false, false, false, false]
    (by decide)).1 (by decide)

theorem takeWhile_length_le (p : Bool → Bool) (l : List Bool) :
    (l.takeWhile p).length ≤ l.length := by
  induction l with
  | nil => simp
  | cons a l ih =>
    rw [List.takeWhile_cons]
    split
    · simp only [List.length_cons]
      omega
    · simp

theorem wah_run_length_cons (w : Nat) (b : Bool) (rest : List Bool) :
    WAH.run_length w (b :: rest) =
      if ((b :: rest).takeWhile (fun x => x == b)).length < w - 1 then 0
      else min (2 ^ (w - 2) - 1)
        (((b :: rest).takeWhile (fun x => x == b)).length / (w - 1)) := rfl

theorem wah_run_length_le (w : Nat) (b : Bool) (rest : List Bool) :
    WAH.run_length w (b :: rest) ≤ 2 ^ (w - 2) - 1 := by
  rw [wah_run_length_cons]
  split
  · omega
  · exact Nat.min_le_left _ _

theorem wah_run_length_consume (w : Nat) (b : Bool) (rest : List Bool) :
    (w - 1) * WAH.run_length w (b :: rest) ≤
      ((b :: rest).takeWhile (fun x => x == b)).length := by
  rw [wah_run_length_cons]
  split
  · simp
  · have h1 : min (2 ^ (w - 2) - 1)
        (((b :: rest).takeWhile (fun x => x == b)).length / (w - 1)) ≤
        ((b :: rest).takeWhile (fun x => x == b)).length / (w - 1) :=
      Nat.min_le_right _ _
    have h2 := Nat.div_mul_le_self
      ((b :: rest).takeWhile (fun x => x == b)).length (w - 1)
    calc (w - 1) * min (2 ^ (w - 2) - 1)
          (((b :: rest).takeWhile (fun x => x == b)).length / (w - 1))
        ≤ (w - 1) * (((b :: rest).takeWhile (fun x => x == b)).length / (w - 1)) :=
          Nat.mul_le_mul_left _ h1
      _ = (((b :: rest).takeWhile (fun x => x == b)).length / (w - 1)) * (w - 1) :=
          Nat.mul_comm _ _
      _ ≤ _ := h2

theorem wah_run_length_w3 (w : Nat) (b : Bool) (rest : List Bool)
    (hw : 2 ≤ w) (h : 1 ≤ WAH.run_length w (b :: rest)) : 3 ≤ w := by
  have := wah_run_length_le w b rest
  by_contra hlt
  have hw2 : w = 2 := by omega
  subst hw2
  simp at this
  omega

theorem wah_encode_literal_eq (w : Nat) (b : Bool) (rest : List Bool) :
    WAH.encode_literal w (b :: rest) =
      ((b :: rest).drop (w - 1),
       false :: ((b :: rest).take (w - 1) ++
         List.replicate (w - 1 - ((b :: rest).take (w - 1)).length) false)) := by
  unfold WAH.encode_literal
  rw [if_neg (by simp)]

theorem wah_encode_run_eq (w : Nat) (b : Bool) (rest : List Bool) :
    WAH.encode_run w (b :: rest) =
      ((b :: rest).drop ((w - 1) * WAH.run_length w (b :: rest)),
       true :: ([b] ++ natToBits (w - 2) (WAH.run_length w (b :: rest)))) := rfl

theorem wah_compressGo_cons (w fuel : Nat) (b : Bool) (rest : List Bool) (fl : Nat) :
    WAH.compressGo w (fuel + 1) (b :: rest) fl =
      if WAH.run_length w (b :: rest) = 0 then
        ((WAH.encode_literal w (b :: rest)).2 ++
          (WAH.compressGo w fuel (WAH.encode_literal w (b :: rest)).1
            (min w ((b :: rest).length + 1))).1,
         (WAH.compressGo w fuel (WAH.encode_literal w (b :: rest)).1
            (min w ((b :: rest).length + 1))).2)
      else
        ((WAH.encode_run w (b :: rest)).2 ++
          (WAH.compressGo w fuel (WAH.encode_run w (b :: rest)).1 fl).1,
         (WAH.compressGo w fuel (WAH.encode_run w (b :: rest)).1 fl).2) := by
  rw [WAH.compressGo]

theorem wah_decompressGo_cons (w fl dfuel : Nat) (b : Bool) (bs : List Bool) :
    WAH.decompressGo w fl (dfuel + 1) (b :: bs) =
      if b then
        match bs.take (w - 1) with
        | [] => none
        | run_type :: cnt =>
          if cnt = [] then none
          else
            match WAH.decompressGo w fl dfuel (bs.drop (w - 1)) with
            | none => none
            | some r => some (List.replicate ((w - 1) * bitsToNat cnt) run_type ++ r)
      else
        match WAH.decompressGo w fl dfuel (bs.drop (w - 1)) with
        | none => none
        | some r => some ((if bs.drop (w - 1) = [] then (bs.take (w - 1)).take (fl - 1)
            else bs.take (w - 1)) ++ r) := by
  rw [WAH.decompressGo]

theorem wah_encode_literal_fst (w : Nat) (b : Bool) (rest : List Bool) :
    (WAH.encode_literal w (b :: rest)).1 = (b :: rest).drop (w - 1) := by
  rw [wah_encode_literal_eq]

theorem wah_encode_literal_snd (w : Nat) (b : Bool) (rest : List Bool) :
    (WAH.encode_literal w (b :: rest)).2 =
      false :: ((b :: rest).take (w - 1) ++
        List.replicate (w - 1 - ((b :: rest).take (w - 1)).length) false) := by
  rw [wah_encode_literal_eq]

theorem wah_encode_run_fst (w : Nat) (b : Bool) (rest : List Bool) :
    (WAH.encode_run w (b :: rest)).1 =
      (b :: rest).drop ((w - 1) * WAH.run_length w (b :: rest)) := rfl

theorem wah_encode_run_snd (w : Nat) (b : Bool) (rest : List Bool) :
    (WAH.encode_run w (b :: rest)).2 =
      true :: ([b] ++ natToBits (w - 2) (WAH.run_length w (b :: rest))) := rfl

theorem wah_compressGo_nil (w fuel fl : Nat) :
    WAH.compressGo w fuel [] fl = ([], fl) := by
  cases fuel <;> rfl

theorem wah_decompressGo_nil (w fl dfuel : Nat) :
    WAH.decompressGo w fl dfuel [] = some [] := by
  cases dfuel <;> rfl

theorem wah_compressGo_correct (w : Nat) (hw : 2 ≤ w) :
    ∀ (fuel : Nat) (bs : List Bool) (fl : Nat),
      bs.length ≤ fuel → 1 ≤ fl → fl ≤ w →
      (WAH.compressGo w fuel bs fl).1.length % w = 0 ∧
      ((WAH.compressGo w fuel bs fl).1 = [] ↔ bs = []) ∧
      1 ≤ (WAH.compressGo w fuel bs fl).2 ∧
      (WAH.compressGo w fuel bs fl).2 ≤ w ∧
      (∀ dfuel, (WAH.compressGo w fuel bs fl).1.length ≤ dfuel →
        WAH.decompressGo w (WAH.compressGo w fuel bs fl).2 dfuel
          (WAH.compressGo w fuel bs fl).1 = some bs) := by
  intro fuel
  induction fuel with
  | zero =>
    intro bs fl hlen hfl1 hflw
    have hbs : bs = [] := List.eq_nil_of_length_eq_zero (by omega)
    subst hbs
    rw [wah_compressGo_nil]
    exact ⟨by simp, by simp, hfl1, hflw, fun dfuel _ => wah_decompressGo_nil w fl dfuel⟩
  | succ fuel ih =>
    intro bs fl hlen hfl1 hflw
    cases bs with
    | nil =>
      rw [wah_compressGo_nil]
      exact ⟨by simp, by simp, hfl1, hflw, fun dfuel _ => wah_decompressGo_nil w fl dfuel⟩
    | cons b rest =>
      rw [wah_compressGo_cons]
      by_cases hrc : WAH.run_length w (b :: rest) = 0
      · -- literal word
        rw [if_pos hrc, wah_encode_literal_fst, wah_encode_literal_snd]
        have hlen' : ((b :: rest).drop (w - 1)).length ≤ fuel := by
          rw [List.length_drop]
          simp only [List.length_cons] at hlen ⊢
          omega
        have hfl'1 : 1 ≤ min w ((b :: rest).length + 1) := by omega
        have hfl'w : min w ((b :: rest).length + 1) ≤ w := by omega
        obtain ⟨ih1, ih2, ih3, ih4, ih5⟩ := ih ((b :: rest).drop (w - 1))
          (min w ((b :: rest).length + 1)) hlen' hfl'1 hfl'w
        have hword : (((b :: rest).take (w - 1)) ++
            List.replicate (w - 1 - ((b :: rest).take (w - 1)).length) false).length
            = w - 1 := by
          rw [List.length_append, List.length_replicate, List.length_take]
          simp only [List.length_cons]
          omega
        refine ⟨?_, ?_, ih3, ih4, ?_⟩
        · rw [List.length_append, List.length_cons, hword]
          rw [show w - 1 + 1 + (WAH.compressGo w fuel ((b :: rest).drop (w - 1))
              (min w ((b :: rest).length + 1))).1.length =
            (WAH.compressGo w fuel ((b :: rest).drop (w - 1))
              (min w ((b :: rest).length + 1))).1.length + w from by omega]
          rw [Nat.add_mod_right]
          exact ih1
        · simp
        · intro dfuel hdf
          have hslen : ((false :: ((b :: rest).take (w - 1) ++
              List.replicate (w - 1 - ((b :: rest).take (w - 1)).length) false)) ++
              (WAH.compressGo w fuel ((b :: rest).drop (w - 1))
                (min w ((b :: rest).length + 1))).1).length =
              w + (WAH.compressGo w fuel ((b :: rest).drop (w - 1))
                (min w ((b :: rest).length + 1))).1.length := by
            rw [List.length_append, List.length_cons, hword]
            omega
          obtain ⟨d, rfl⟩ : ∃ d, dfuel = d + 1 := by
            refine ⟨dfuel - 1, ?_⟩
            rw [hslen] at hdf
            omega
          rw [show (false :: ((b :: rest).take (w - 1) ++
              List.replicate (w - 1 - ((b :: rest).take (w - 1)).length) false)) ++
              (WAH.compressGo w fuel ((b :: rest).drop (w - 1))
                (min w ((b :: rest).length + 1))).1 =
            false :: (((b :: rest).take (w - 1) ++
              List.replicate (w - 1 - ((b :: rest).take (w - 1)).length) false) ++
              (WAH.compressGo w fuel ((b :: rest).drop (w - 1))
                (min w ((b :: rest).length + 1))).1) from rfl]
          rw [wah_decompressGo_cons]
          rw [if_neg (by simp)]
          rw [List.take_left' hword, List.drop_left' hword]
          by_cases htail : (b :: rest).drop (w - 1) = []
          · have hc' : (WAH.compressGo w fuel ((b :: rest).drop (w - 1))
                (min w ((b :: rest).length + 1))).1 = [] := ih2.mpr htail
            have hflr : (WAH.compressGo w fuel ((b :: rest).drop (w - 1))
                (min w ((b :: rest).length + 1))).2 = min w ((b :: rest).length + 1) := by
              rw [htail, wah_compressGo_nil]
            have hlenle : (b :: rest).length ≤ w - 1 := by
              rw [List.drop_eq_nil_iff_le] at htail
              exact htail
            have hmin : min w ((b :: rest).length + 1) = (b :: rest).length + 1 := by
              omega
            rw [hc', hflr, hmin, wah_decompressGo_nil]
            dsimp only
            rw [if_pos rfl]
            rw [List.take_of_length_le hlenle]
            rw [Nat.add_sub_cancel]
            rw [List.take_left' rfl]
            rw [List.append_nil]
          · have hc'ne : (WAH.compressGo w fuel ((b :: rest).drop (w - 1))
                (min w ((b :: rest).length + 1))).1 ≠ [] := fun h => htail (ih2.mp h)
            have hd' : (WAH.compressGo w fuel ((b :: rest).drop (w - 1))
                (min w ((b :: rest).length + 1))).1.length ≤ d := by
              rw [hslen] at hdf
              omega
            rw [ih5 d hd']
            dsimp only
            rw [if_neg hc'ne]
            have hpad : w - 1 - ((b :: rest).take (w - 1)).length = 0 := by
              rw [List.length_take]
              rw [List.drop_eq_nil_iff_le] at htail
              simp only [List.length_cons] at htail ⊢
              omega
            rw [hpad, List.replicate_zero, List.append_nil]
            rw [List.take_append_drop]
      · -- run word
        rw [if_neg hrc, wah_encode_run_fst, wah_encode_run_snd]
        have hrc1 : 1 ≤ WAH.run_length w (b :: rest) := Nat.pos_of_ne_zero hrc
        have hw3 : 3 ≤ w := wah_run_length_w3 w b rest hw hrc1
        have hcons := wah_run_length_consume w b rest
        have hrb_le : ((b :: rest).takeWhile (fun x => x == b)).length ≤
            (b :: rest).length := takeWhile_length_le _ _
        have hkpos : 1 ≤ (w - 1) * WAH.run_length w (b :: rest) :=
          Nat.mul_pos (by omega) hrc1
        have hlen' : ((b :: rest).drop ((w - 1) * WAH.run_length w (b :: rest))).length
            ≤ fuel := by
          rw [List.length_drop]
          simp only [List.length_cons] at hlen ⊢
          omega
        obtain ⟨ih1, ih2, ih3, ih4, ih5⟩ := ih
          ((b :: rest).drop ((w - 1) * WAH.run_length w (b :: rest))) fl hlen' hfl1 hflw
        have hword : ([b] ++ natToBits (w - 2) (WAH.run_length w (b :: rest))).length
            = w - 1 := by
          rw [List.length_append, natToBits_length]
          simp only [List.length_cons, List.length_nil]
          omega
        have hrclt : WAH.run_length w (b :: rest) < 2 ^ (w - 2) := by
          have h1 := wah_run_length_le w b rest
          have h2 : (1 : Nat) ≤ 2 ^ (w - 2) := Nat.one_le_two_pow
          omega
        have hnbne : natToBits (w - 2) (WAH.run_length w (b :: rest)) ≠ [] := by
          apply List.ne_nil_of_length_pos
          rw [natToBits_length]
          omega
        refine ⟨?_, ?_, ih3, ih4, ?_⟩
        · rw [List.length_append, List.length_cons, hword]
          rw [show w - 1 + 1 + (WAH.compressGo w fuel
              ((b :: rest).drop ((w - 1) * WAH.run_length w (b :: rest))) fl).1.length =
            (WAH.compressGo w fuel
              ((b :: rest).drop ((w - 1) * WAH.run_length w (b :: rest))) fl).1.length + w
            from by omega]
          rw [Nat.add_mod_right]
          exact ih1
        · simp
        · intro dfuel hdf
          have hslen : ((true :: ([b] ++ natToBits (w - 2) (WAH.run_length w (b :: rest)))) ++
              (WAH.compressGo w fuel
                ((b :: rest).drop ((w - 1) * WAH.run_length w (b :: rest))) fl).1).length =
              w + (WAH.compressGo w fuel
                ((b :: rest).drop ((w - 1) * WAH.run_length w (b :: rest))) fl).1.length := by
            rw [List.length_append, List.length_cons, hword]
            omega
          obtain ⟨d, rfl⟩ : ∃ d, dfuel = d + 1 := by
            refine ⟨dfuel - 1, ?_⟩
            rw [hslen] at hdf
            omega
          rw [show (true :: ([b] ++ natToBits (w - 2) (WAH.run_length w (b :: rest)))) ++
              (WAH.compressGo w fuel
                ((b :: rest).drop ((w - 1) * WAH.run_length w (b :: rest))) fl).1 =
            true :: (([b] ++ natToBits (w - 2) (WAH.run_length w (b :: rest))) ++
              (WAH.compressGo w fuel
                ((b :: rest).drop ((w - 1) * WAH.run_length w (b :: rest))) fl).1) from rfl]
          rw [wah_decompressGo_cons]
          rw [if_pos rfl]
          rw [List.take_left' hword, List.drop_left' hword]
          rw [show ([b] ++ natToBits (w - 2) (WAH.run_length w (b :: rest))) =
            b :: natToBits (w - 2) (WAH.run_length w (b :: rest)) from rfl]
          dsimp only
          rw [if_neg hnbne]
          by_cases htail : (b :: rest).drop ((w - 1) * WAH.run_length w (b :: rest)) = []
          · have hc' : (WAH.compressGo w fuel
                ((b :: rest).drop ((w - 1) * WAH.run_length w (b :: rest))) fl).1 = [] :=
              ih2.mpr htail
            rw [hc', wah_decompressGo_nil]
            dsimp only
            rw [bitsToNat_natToBits _ _ hrclt]
            rw [List.append_nil]
            have hklen : (b :: rest).length ≤ (w - 1) * WAH.run_length w (b :: rest) := by
              rw [List.drop_eq_nil_iff_le] at htail
              exact htail
            have h1 := take_of_le_takeWhile b (b :: rest)
              ((w - 1) * WAH.run_length w (b :: rest)) hcons
            rw [List.take_of_length_le hklen] at h1
            rw [← h1]
          · have hd' : (WAH.compressGo w fuel
                ((b :: rest).drop ((w - 1) * WAH.run_length w (b :: rest))) fl).1.length
                ≤ d := by
              rw [hslen] at hdf
              omega
            rw [ih5 d hd']
            dsimp only
            rw [bitsToNat_natToBits _ _ hrclt]
            have h1 := take_of_le_takeWhile b (b :: rest)
              ((w - 1) * WAH.run_length w (b :: rest)) hcons
            rw [← h1, List.take_append_drop]

/-- Claim C3: WAH round-trips: for every word size `w` with
`2 ≤ w ≤ 64` and every bit string, if compression returns a stream and a
final length, decompressing them recovers the input exactly. -/
theorem c3_wah_roundtrip (w : Nat) (bs c : List Bool) (fl : Nat)
    (hw2 : 2 ≤ w) (hw64 : w ≤ 64)
    (h : WAH.compress bs w = some (c, fl)) :
    WAH.decompress c fl w = some bs := by
  unfold WAH.compress at h
  by_cases hbs : bs.isEmpty
  · rw [if_pos hbs] at h
    cases h
  · rw [if_neg hbs, if_neg (by omega)] at h
    injection h with h
    have hc : (WAH.compressGo w bs.length bs w).1 = c := by rw [h]
    have hfl : (WAH.compressGo w bs.length bs w).2 = fl := by rw [h]
    obtain ⟨g1, g2, g3, g4, g5⟩ := wah_compressGo_correct w hw2 bs.length bs w
      (le_refl _) (by omega) (le_refl w)
    rw [hc] at g2 g5
    rw [hfl] at g3 g4 g5
    have hbsne : bs ≠ [] := by
      intro hh
      rw [hh] at hbs
      exact hbs rfl
    have hcne : c ≠ [] := fun hh => hbsne (g2.mp hh)
    unfold WAH.decompress
    rw [if_neg (by
      intro hh
      exact hcne (List.isEmpty_iff.mp hh))]
    rw [if_neg (by omega)]
    rw [if_neg (by
      intro hh
      exact hh ⟨g3, g4⟩)]
    exact g5 c.length (le_refl _)

theorem c3_witness :
    WAH.decompress [false, true, false, false] 2 4 = some [true] :=
  c3_wah_roundtrip 4 [true] [false, true, false, false] 2
    (by decide) (by decide) (by decide)

/-- Claim C9: the bit length of every WAH-compressed stream is an exact
multiple of the word size, because every emitted run word and every
emitted literal word (including a padded final literal) is exactly
`word_size` bits long. -/
theorem c9_wah_output_word_aligned (w : Nat) (bs c : List Bool) (fl : Nat)
    (hw2 : 2 ≤ w) (h : WAH.compress bs w = some (c, fl)) :
    c.length % w = 0 ∧
    (∀ bs2 : List Bool, bs2 ≠ [] → (WAH.encode_run w bs2).2.length = w) ∧
    (∀ bs2 : List Bool, bs2 ≠ [] → (WAH.encode_literal w bs2).2.length = w) := by
  refine ⟨?_, ?_, ?_⟩
  · unfold WAH.compress at h
    by_cases hbs : bs.isEmpty
    · rw [if_pos hbs] at h
      cases h
    · rw [if_neg hbs, if_neg (by omega)] at h
      injection h with h
      have hc : (WAH.compressGo w bs.length bs w).1 = c := by rw [h]
      obtain ⟨g1, _, _, _, _⟩ := wah_compressGo_correct w hw2 bs.length bs w
        (le_refl _) (by omega) (le_refl w)
      rw [hc] at g1
      exact g1
  · intro bs2 hne
    cases bs2 with
    | nil => exact absurd rfl hne
    | cons b rest =>
      rw [wah_encode_run_snd]
      simp only [List.length_cons, List.length_append, List.length_nil, natToBits_length]
      omega
  · intro bs2 hne
    cases bs2 with
    | nil => exact absurd rfl hne
    | cons b rest =>
      rw [wah_encode_literal_snd]
      simp only [List.length_cons, List.length_append, List.length_replicate,
        List.length_take]
      omega

theorem c9_witness :
    ([false, true, false, false] : List Bool).length % 4 = 0 ∧
    (∀ bs2 : List Bool, bs2 ≠ [] → (WAH.encode_run 4 bs2).2.length = 4) ∧
    (∀ bs2 : List Bool, bs2 ≠ [] → (WAH.encode_literal 4 bs2).2.length = 4) :=
  c9_wah_output_word_aligned 4 [true] [false, true, false, false] 2
    (by decide) (by decide)
